import Mathlib

/-!
Shallow embedding of `breakthrough/BreakthroughGame.py` (class `BreakthroughGame`).

A board is an `n × n` numpy array of int8 with values in `{-1, 0, +1}`; we model it
as a total function `Nat → Nat → Int` and guard all statements by `i < n`, `j < n`.
The board-size parameter `self.n` becomes an explicit argument `n` (the constructor
asserts `n ≥ 4` and `n % 2 == 0`; theorems carry those as hypotheses).
-/

namespace Breakthrough

/-- A board position: cell `(i, j)` (row-major, like numpy indexing). -/
abbrev Board := Nat → Nat → Int

/-- `getActionSize`: `(3 * self.n - 2) * (self.n - 1)`. -/
def actionSize (n : Nat) : Nat := (3 * n - 2) * (n - 1)

/-- The four coordinates that `getNextState` computes before writing to the board:
`src_row`, `src_col`, `dest_row`, `dest_col`. -/
structure Move where
  src_row : Nat
  src_col : Nat
  dest_row : Nat
  dest_col : Nat
deriving DecidableEq, Repr

/-- The coordinate computation of `getNextState` (lines 75–88):

```
left_act = min(action, (n - 1) * (3 * n - 2) - action - 1)
if left_act < (n - 1) * (n - 1):              # Region 1
    dest_row, src_col = (left_act // (n - 1), left_act % (n - 1))
    src_row, dest_col = (dest_row + 1, src_col + 1)
else:                                         # Region 2
    la_zeroed = left_act - (n - 1) * (n - 1)
    dest_row, dest_col = (la_zeroed // (n // 2), la_zeroed % (n // 2))
    src_row, src_col = (dest_row + 1, dest_col)
if left_act < action:                         # Mirror horizontally
    src_col, dest_col = (n - src_col - 1, n - dest_col - 1)
if player < 0:                                # Mirror vertically
    src_row, dest_row = (n - src_row - 1, n - dest_row - 1)
```

For `action < actionSize n` every subtraction stays in range, so `Nat`
subtraction agrees with Python's integer subtraction (proved below).
`decodePos` is everything before the final `if player < 0` mirror (the two
stages do not mention `player`). -/
def decodePos (n : Nat) (action : Nat) : Move :=
  let left_act := min action ((n - 1) * (3 * n - 2) - action - 1)
  let base : Move :=
    if left_act < (n - 1) * (n - 1) then -- Region 1
      { src_row := left_act / (n - 1) + 1, src_col := left_act % (n - 1),
        dest_row := left_act / (n - 1), dest_col := left_act % (n - 1) + 1 }
    else -- Region 2
      let la_zeroed := left_act - (n - 1) * (n - 1)
      { src_row := la_zeroed / (n / 2) + 1, src_col := la_zeroed % (n / 2),
        dest_row := la_zeroed / (n / 2), dest_col := la_zeroed % (n / 2) }
  if left_act < action then -- Mirror horizontally
    { base with src_col := n - base.src_col - 1, dest_col := n - base.dest_col - 1 }
  else base

/-- The full coordinate computation, including the vertical mirror for
`player < 0`. -/
def decode (n : Nat) (player : Int) (action : Nat) : Move :=
  let mirrored := decodePos n action
  if player < 0 then -- Mirror vertically
    { mirrored with src_row := n - mirrored.src_row - 1,
                    dest_row := n - mirrored.dest_row - 1 }
  else mirrored

/-- A single numpy cell assignment `b[r][c] = v`. -/
def upd (b : Board) (r c : Nat) (v : Int) : Board :=
  fun i j => if i = r ∧ j = c then v else b i j

/-- `getNextState(board, player, action)`: copies the board, decodes the action,
then `board[src_row][src_col] = 0; board[dest_row][dest_col] = player;
return (board, -player)`. (The copy `np.copy(board)` is implicit: `upd` builds a
new function and never mutates its argument.) -/
def getNextState (n : Nat) (b : Board) (player : Int) (action : Nat) : Board × Int :=
  let mv := decode n player action
  (upd (upd b mv.src_row mv.src_col 0) mv.dest_row mv.dest_col player, -player)

/-- `getCanonicalForm(board, player)`: the board itself for `player > 0`, else
`np.flipud(board * player)`, i.e. cell `(i, j)` of the result is
`board[n - 1 - i][j] * player`. -/
def getCanonicalForm (n : Nat) (b : Board) (player : Int) : Board :=
  if 0 < player then b else fun i j => b (n - 1 - i) j * player

/-- `getValidMoves(board, player)` (lines 94–128).  The numpy code builds four
boolean arrays and concatenates their row-major flattenings:

* Region 1, `moves_right = (board[1:,:-1] > 0) & (board[:-1,1:] <= 0)`,
  shape `(n-1, n-1)`; flat index `a = r*(n-1) + c` reads
  `board[r+1][c] > 0 and board[r][c+1] <= 0`.
* Region 2, `moves_forward1 = (board[1:,:n//2] > 0) & (board[:-1,:n//2] == 0)`,
  shape `(n-1, n/2)`; flat index `i = r*(n/2) + c` reads
  `board[r+1][c] > 0 and board[r][c] == 0`.
* Region 3, `moves_forward2 = (flipud(board[1:,n//2:]) > 0) & (flipud(board[:-1,n//2:]) == 0)`,
  shape `(n-1, n/2)`; since `flipud(board[1:,n//2:])[r][c] = board[n-1-r][n/2+c]`
  and `flipud(board[:-1,n//2:])[r][c] = board[n-2-r][n/2+c]`, flat index
  `i = r*(n/2) + c` reads `board[n-1-r][n/2+c] > 0 and board[n-2-r][n/2+c] == 0`.
* Region 4, `moves_left = (flipud(board[1:,1:]) > 0) & (flipud(board[:-1,:-1]) <= 0)`,
  shape `(n-1, n-1)`; flat index `i = r*(n-1) + c` reads
  `board[n-1-r][c+1] > 0 and board[n-2-r][c] <= 0`.

All reads are of `board = getCanonicalForm(board, player)`.  Indices past the
concatenated length do not exist in the numpy vector; the model returns `false`
there. -/
def getValidMoves (n : Nat) (b : Board) (player : Int) : Nat → Bool := fun a =>
  let cb := getCanonicalForm n b player
  if a < (n - 1) * (n - 1) then
    decide (0 < cb (a / (n - 1) + 1) (a % (n - 1)) ∧ cb (a / (n - 1)) (a % (n - 1) + 1) ≤ 0)
  else if a < (n - 1) * (n - 1) + (n - 1) * (n / 2) then
    let i := a - (n - 1) * (n - 1)
    decide (0 < cb (i / (n / 2) + 1) (i % (n / 2)) ∧ cb (i / (n / 2)) (i % (n / 2)) = 0)
  else if a < (n - 1) * (n - 1) + (n - 1) * n then
    let i := a - ((n - 1) * (n - 1) + (n - 1) * (n / 2))
    decide (0 < cb (n - 1 - i / (n / 2)) (n / 2 + i % (n / 2)) ∧
            cb (n - 2 - i / (n / 2)) (n / 2 + i % (n / 2)) = 0)
  else if a < (3 * n - 2) * (n - 1) then
    let i := a - ((n - 1) * (n - 1) + (n - 1) * n)
    decide (0 < cb (n - 1 - i / (n - 1)) (i % (n - 1) + 1) ∧
            cb (n - 2 - i / (n - 1)) (i % (n - 1)) ≤ 0)
  else
    false

/-- `getGameEnded(board, player)`: `w_win = 1 in board[0]`,
`b_win = -1 in board[self.n - 1]`; returns `player` if `w_win`, else `-player`
if `b_win`, else `0`. -/
def getGameEnded (n : Nat) (b : Board) (player : Int) : Int :=
  let w_win := (List.range n).any fun c => b 0 c == 1
  let b_win := (List.range n).any fun c => b (n - 1) c == -1
  if w_win then player
  else if b_win then -player
  else 0

/-- `getInitBoard()`: a zero board, then `board[row] -= 1` for rows 0 and 1 and
`board[row] += 1` for rows `n-1` and `n-2`. -/
def getInitBoard (n : Nat) : Board := fun i _j =>
  (if i = 0 ∨ i = 1 then (0 : Int) - 1 else 0) +
  (if i = n - 1 ∨ i = n - 2 then 1 else 0)

/-- `np.fliplr(board)`: cell `(i, j)` of the result is `board[i][n - 1 - j]`. -/
def fliplrB (n : Nat) (b : Board) : Board := fun i j => b i (n - 1 - j)

/-- `getSymmetries(board, pi)`:
`[(board, pi), (np.fliplr(board), np.flip(pi))]`.  The policy vector is modelled
as a list of rationals (numpy floats only get permuted, never combined). -/
def getSymmetries (n : Nat) (b : Board) (pi : List ℚ) : List (Board × List ℚ) :=
  [(b, pi), (fliplrB n b, pi.reverse)]

/-- Python sequence indexing `l[p]` for `p : Int`: negative indices count from
the end, out-of-range indices raise (`none`). -/
def tupleIndex (l : List Char) (p : Int) : Option Char :=
  let i := if p < 0 then p + l.length else p
  if h : 0 ≤ i ∧ i.toNat < l.length then some (l.get ⟨i.toNat, h.2⟩) else none

/-- Sequencing of the generator inside `''.join(...)`: any failing cell lookup
fails the whole expression. -/
def seqOpt : List (Option Char) → Option (List Char)
  | [] => some []
  | none :: _ => none
  | some c :: rest => (seqOpt rest).map (c :: ·)

/-- `stringRepresentation(board)`: `''.join(('.', 'W', 'B')[p] for p in board.flat)`.
`board.flat` is row-major; `('.', 'W', 'B')[p]` is Python tuple indexing, which
wraps negative indices (`p = -1` selects `'B'`) and raises outside `[-3, 3)`. -/
def stringRepresentation (n : Nat) (b : Board) : Option String :=
  (seqOpt ((List.range n).map (fun i =>
      (List.range n).map fun j => tupleIndex ['.', 'W', 'B'] (b i j))).flatten).map
    List.asString

-- Sanity checks against the docstring numbering example (n = 4):
-- region 1 starts at 0, region 2 at 9, region 3 at 15, region 4 at 21.
example : decode 4 1 0 = ⟨1, 0, 0, 1⟩ := by decide
example : decode 4 1 8 = ⟨3, 2, 2, 3⟩ := by decide
example : decode 4 1 9 = ⟨1, 0, 0, 0⟩ := by decide
example : decode 4 1 15 = ⟨3, 2, 2, 2⟩ := by decide
example : decode 4 1 21 = ⟨3, 1, 2, 0⟩ := by decide
example : decode 4 1 29 = ⟨1, 3, 0, 2⟩ := by decide
example : decode 4 (-1) 0 = ⟨2, 0, 3, 1⟩ := by decide
example : actionSize 4 = 30 := by decide
example : getInitBoard 4 0 0 = -1 ∧ getInitBoard 4 2 3 = 1 := by decide
example : getGameEnded 4 (getInitBoard 4) 1 = 0 := by decide
example : stringRepresentation 4 (getInitBoard 4) = some "BBBBBBBBWWWWWWWW" := by decide

/-! ### Arithmetic helpers -/

lemma actionSize_eq (n : Nat) (hn : 4 ≤ n) (hev : Even n) :
    actionSize n = 2 * ((n - 1) * (n - 1)) + 2 * ((n - 1) * (n / 2)) := by
  obtain ⟨k, hk⟩ := hev
  have h1 : 3 * n - 2 = 2 * (n - 1) + 2 * (n / 2) := by omega
  unfold actionSize
  rw [h1]
  ring

lemma actionSize_eq' (n : Nat) (hn : 4 ≤ n) (hev : Even n) :
    (n - 1) * (3 * n - 2) = 2 * ((n - 1) * (n - 1)) + 2 * ((n - 1) * (n / 2)) := by
  rw [Nat.mul_comm]
  exact actionSize_eq n hn hev

lemma mul_n_split (n : Nat) (hev : Even n) :
    (n - 1) * n = 2 * ((n - 1) * (n / 2)) := by
  obtain ⟨k, hk⟩ := hev
  have h1 : n = 2 * (n / 2) := by omega
  calc (n - 1) * n = (n - 1) * (2 * (n / 2)) := by rw [← h1]
    _ = 2 * ((n - 1) * (n / 2)) := by ring

/-- Reversing a flat index inside a `k × N`-shaped block flips both the
quotient and the remainder. -/
lemma flip_div_mod (k N i : Nat) (hk : 0 < k) (hi : i < k * N) :
    (k * N - 1 - i) / k = N - 1 - i / k ∧ (k * N - 1 - i) % k = k - 1 - i % k := by
  set q := i / k with hq
  set r := i % k with hr
  have hd : k * q + r = i := Nat.div_add_mod i k
  have hrk : r < k := Nat.mod_lt _ hk
  have hqN : q < N := Nat.div_lt_of_lt_mul hi
  have key : k * N - 1 - i = k * (N - 1 - q) + (k - 1 - r) := by
    have e1 : q + (N - 1 - q) + 1 = N := by omega
    have e2 : k * (q + (N - 1 - q) + 1) = k * q + k * (N - 1 - q) + k := by ring
    rw [e1] at e2
    generalize k * (N - 1 - q) = B at e2 ⊢
    generalize k * q = A at e2 hd
    generalize k * N = C at e2 ⊢
    omega
  refine ⟨?_, ?_⟩
  · rw [key, Nat.mul_add_div hk, Nat.div_eq_of_lt (by omega), Nat.add_zero]
  · rw [key, Nat.mul_add_mod, Nat.mod_eq_of_lt (by omega)]

/-! ### Closed forms for `decodePos` in the four action regions -/

lemma decode_one (n a : Nat) : decode n 1 a = decodePos n a := by
  simp only [decode]
  rw [if_neg (by norm_num : ¬ ((1 : Int) < 0))]

lemma decode_r1 (n a : Nat) (hn : 4 ≤ n) (hev : Even n)
    (ha : a < (n - 1) * (n - 1)) :
    decodePos n a =
      { src_row := a / (n - 1) + 1, src_col := a % (n - 1),
        dest_row := a / (n - 1), dest_col := a % (n - 1) + 1 } := by
  have hS := actionSize_eq' n hn hev
  have hmin : min a ((n - 1) * (3 * n - 2) - a - 1) = a := by
    apply Nat.min_eq_left
    generalize (n - 1) * (n - 1) = P at *
    generalize (n - 1) * (n / 2) = Q at *
    omega
  simp only [decodePos, hmin, if_pos ha, lt_self_iff_false, if_false]

lemma decode_r2 (n i : Nat) (hn : 4 ≤ n) (hev : Even n)
    (hi : i < (n - 1) * (n / 2)) :
    decodePos n ((n - 1) * (n - 1) + i) =
      { src_row := i / (n / 2) + 1, src_col := i % (n / 2),
        dest_row := i / (n / 2), dest_col := i % (n / 2) } := by
  have hS := actionSize_eq' n hn hev
  have hmin : min ((n - 1) * (n - 1) + i)
      ((n - 1) * (3 * n - 2) - ((n - 1) * (n - 1) + i) - 1) = (n - 1) * (n - 1) + i := by
    apply Nat.min_eq_left
    generalize (n - 1) * (n - 1) = P at *
    generalize (n - 1) * (n / 2) = Q at *
    omega
  have hbr : ¬ ((n - 1) * (n - 1) + i < (n - 1) * (n - 1)) := by
    generalize (n - 1) * (n - 1) = P
    omega
  simp only [decodePos, hmin, if_neg hbr, Nat.add_sub_cancel_left, lt_self_iff_false,
    if_false]

lemma decode_r3 (n i : Nat) (hn : 4 ≤ n) (hev : Even n)
    (hi : i < (n - 1) * (n / 2)) :
    decodePos n ((n - 1) * (n - 1) + (n - 1) * (n / 2) + i) =
      { src_row := n - 1 - i / (n / 2), src_col := n / 2 + i % (n / 2),
        dest_row := n - 2 - i / (n / 2), dest_col := n / 2 + i % (n / 2) } := by
  have hS := actionSize_eq' n hn hev
  have hh : 0 < n / 2 := by omega
  have hhn : 2 * (n / 2) = n := by obtain ⟨k, hk⟩ := hev; omega
  have hi' : i < (n / 2) * (n - 1) := by rwa [Nat.mul_comm] at hi
  have hfd := flip_div_mod (n / 2) (n - 1) i hh hi'
  have hdiv : i / (n / 2) < n - 1 := Nat.div_lt_of_lt_mul hi'
  have hmod : i % (n / 2) < n / 2 := Nat.mod_lt _ hh
  have hla : (n - 1) * (3 * n - 2) - ((n - 1) * (n - 1) + (n - 1) * (n / 2) + i) - 1
      = (n - 1) * (n - 1) + ((n - 1) * (n / 2) - 1 - i) := by
    generalize (n - 1) * (n - 1) = P at *
    generalize (n - 1) * (n / 2) = Q at *
    omega
  have hmin : min ((n - 1) * (n - 1) + (n - 1) * (n / 2) + i)
      ((n - 1) * (3 * n - 2) - ((n - 1) * (n - 1) + (n - 1) * (n / 2) + i) - 1)
      = (n - 1) * (n - 1) + ((n - 1) * (n / 2) - 1 - i) := by
    rw [hla]
    apply Nat.min_eq_right
    generalize (n - 1) * (n - 1) = P at *
    generalize (n - 1) * (n / 2) = Q at *
    omega
  have hbr : ¬ ((n - 1) * (n - 1) + ((n - 1) * (n / 2) - 1 - i) < (n - 1) * (n - 1)) := by
    generalize (n - 1) * (n - 1) = P
    omega
  have hmir : (n - 1) * (n - 1) + ((n - 1) * (n / 2) - 1 - i)
      < (n - 1) * (n - 1) + (n - 1) * (n / 2) + i := by
    generalize (n - 1) * (n - 1) = P at *
    generalize (n - 1) * (n / 2) = Q at *
    omega
  have hq : ((n - 1) * (n / 2) - 1 - i) / (n / 2) = n - 2 - i / (n / 2) := by
    rw [Nat.mul_comm (n - 1) (n / 2)] at *
    have := hfd.1
    omega
  have hr : ((n - 1) * (n / 2) - 1 - i) % (n / 2) = n / 2 - 1 - i % (n / 2) := by
    rw [Nat.mul_comm (n - 1) (n / 2)] at *
    exact hfd.2
  simp only [decodePos, hmin, if_neg hbr, Nat.add_sub_cancel_left, if_pos hmir, hq, hr,
    Move.mk.injEq]
  refine ⟨by omega, by omega, trivial, by omega⟩

lemma decode_r4 (n i : Nat) (hn : 4 ≤ n) (hev : Even n)
    (hi : i < (n - 1) * (n - 1)) :
    decodePos n ((n - 1) * (n - 1) + (n - 1) * n + i) =
      { src_row := n - 1 - i / (n - 1), src_col := i % (n - 1) + 1,
        dest_row := n - 2 - i / (n - 1), dest_col := i % (n - 1) } := by
  have hS := actionSize_eq' n hn hev
  have hsplit := mul_n_split n hev
  have hm : 0 < n - 1 := by omega
  have hfd := flip_div_mod (n - 1) (n - 1) i hm hi
  have hdiv : i / (n - 1) < n - 1 := Nat.div_lt_of_lt_mul hi
  have hmod : i % (n - 1) < n - 1 := Nat.mod_lt _ hm
  have hla : (n - 1) * (3 * n - 2) - ((n - 1) * (n - 1) + (n - 1) * n + i) - 1
      = (n - 1) * (n - 1) - 1 - i := by
    generalize hP : (n - 1) * (n - 1) = P at *
    generalize hQ : (n - 1) * (n / 2) = Q at *
    generalize hR : (n - 1) * n = R at *
    omega
  have hmin : min ((n - 1) * (n - 1) + (n - 1) * n + i)
      ((n - 1) * (3 * n - 2) - ((n - 1) * (n - 1) + (n - 1) * n + i) - 1)
      = (n - 1) * (n - 1) - 1 - i := by
    rw [hla]
    apply Nat.min_eq_right
    generalize (n - 1) * (n - 1) = P at *
    omega
  have hbr : (n - 1) * (n - 1) - 1 - i < (n - 1) * (n - 1) := by
    generalize (n - 1) * (n - 1) = P at *
    omega
  have hmir : (n - 1) * (n - 1) - 1 - i < (n - 1) * (n - 1) + (n - 1) * n + i := by
    generalize (n - 1) * (n - 1) = P at *
    generalize (n - 1) * n = R at *
    omega
  have hq : ((n - 1) * (n - 1) - 1 - i) / (n - 1) = n - 2 - i / (n - 1) := by
    have := hfd.1
    omega
  have hr : ((n - 1) * (n - 1) - 1 - i) % (n - 1) = n - 1 - 1 - i % (n - 1) := hfd.2
  simp only [decodePos, hmin, if_pos hbr, if_pos hmir, hq, hr, Move.mk.injEq]
  refine ⟨by omega, by omega, trivial, by omega⟩

/-- The vertical mirror for player `−1`, in terms of the player-`+1` decode. -/
lemma decode_neg (n a : Nat) :
    decode n (-1) a =
      { decodePos n a with
        src_row := n - (decodePos n a).src_row - 1,
        dest_row := n - (decodePos n a).dest_row - 1 } := by
  simp only [decode]
  rw [if_pos (by norm_num : ((-1 : Int) < 0))]

/-- Every in-range action index falls into one of the four concatenated
regions of `getValidMoves` / `decode`. -/
lemma region_cases (n a : Nat) (hn : 4 ≤ n) (hev : Even n) (ha : a < actionSize n) :
    a < (n - 1) * (n - 1) ∨
    (∃ i, i < (n - 1) * (n / 2) ∧ a = (n - 1) * (n - 1) + i) ∨
    (∃ i, i < (n - 1) * (n / 2) ∧ a = (n - 1) * (n - 1) + (n - 1) * (n / 2) + i) ∨
    (∃ i, i < (n - 1) * (n - 1) ∧ a = (n - 1) * (n - 1) + (n - 1) * n + i) := by
  have hS := actionSize_eq n hn hev
  have hsplit := mul_n_split n hev
  rcases Nat.lt_or_ge a ((n - 1) * (n - 1)) with h1 | h1
  · exact Or.inl h1
  rcases Nat.lt_or_ge a ((n - 1) * (n - 1) + (n - 1) * (n / 2)) with h2 | h2
  · refine Or.inr (Or.inl ⟨a - (n - 1) * (n - 1), ?_, ?_⟩) <;>
      · generalize (n - 1) * (n - 1) = P at *
        generalize (n - 1) * (n / 2) = Q at *
        omega
  rcases Nat.lt_or_ge a ((n - 1) * (n - 1) + 2 * ((n - 1) * (n / 2))) with h3 | h3
  · refine Or.inr (Or.inr (Or.inl ⟨a - ((n - 1) * (n - 1) + (n - 1) * (n / 2)), ?_, ?_⟩)) <;>
      · generalize (n - 1) * (n - 1) = P at *
        generalize (n - 1) * (n / 2) = Q at *
        omega
  · refine Or.inr (Or.inr (Or.inr ⟨a - ((n - 1) * (n - 1) + (n - 1) * n), ?_, ?_⟩)) <;>
      · generalize (n - 1) * (n - 1) = P at *
        generalize (n - 1) * (n / 2) = Q at *
        generalize (n - 1) * n = R at *
        omega

/-- Geometry of the canonical (player `+1`) decode on in-range actions:
the move goes exactly one row up, at most one column sideways, and stays on
the board. -/
lemma decodePos_spec (n a : Nat) (hn : 4 ≤ n) (hev : Even n) (ha : a < actionSize n) :
    (decodePos n a).src_row = (decodePos n a).dest_row + 1 ∧
    (decodePos n a).src_row < n ∧
    1 ≤ (decodePos n a).src_row ∧
    (decodePos n a).src_col < n ∧
    (decodePos n a).dest_col < n ∧
    (decodePos n a).dest_col ≤ (decodePos n a).src_col + 1 ∧
    (decodePos n a).src_col ≤ (decodePos n a).dest_col + 1 := by
  have hh : 0 < n / 2 := by omega
  have hhn : 2 * (n / 2) = n := by obtain ⟨k, hk⟩ := hev; omega
  have hm : 0 < n - 1 := by omega
  rcases region_cases n a hn hev ha with h | ⟨i, hi, rfl⟩ | ⟨i, hi, rfl⟩ | ⟨i, hi, rfl⟩
  · rw [decode_r1 n a hn hev h]
    have h1 : a / (n - 1) < n - 1 := Nat.div_lt_of_lt_mul h
    have h2 : a % (n - 1) < n - 1 := Nat.mod_lt _ hm
    dsimp only
    generalize a / (n - 1) = q at h1 ⊢
    generalize a % (n - 1) = r at h2 ⊢
    refine ⟨?_, ?_, ?_, ?_, ?_, ?_, ?_⟩ <;> omega
  · rw [decode_r2 n i hn hev hi]
    have h1 : i / (n / 2) < n - 1 := Nat.div_lt_of_lt_mul (by rwa [Nat.mul_comm] at hi)
    have h2 : i % (n / 2) < n / 2 := Nat.mod_lt _ hh
    dsimp only
    generalize i / (n / 2) = q at h1 ⊢
    generalize i % (n / 2) = r at h2 ⊢
    refine ⟨?_, ?_, ?_, ?_, ?_, ?_, ?_⟩ <;> omega
  · rw [decode_r3 n i hn hev hi]
    have h1 : i / (n / 2) < n - 1 := Nat.div_lt_of_lt_mul (by rwa [Nat.mul_comm] at hi)
    have h2 : i % (n / 2) < n / 2 := Nat.mod_lt _ hh
    dsimp only
    generalize i / (n / 2) = q at h1 ⊢
    generalize i % (n / 2) = r at h2 ⊢
    refine ⟨?_, ?_, ?_, ?_, ?_, ?_, ?_⟩ <;> omega
  · rw [decode_r4 n i hn hev hi]
    have h1 : i / (n - 1) < n - 1 := Nat.div_lt_of_lt_mul hi
    have h2 : i % (n - 1) < n - 1 := Nat.mod_lt _ hm
    dsimp only
    generalize i / (n - 1) = q at h1 ⊢
    generalize i % (n - 1) = r at h2 ⊢
    refine ⟨?_, ?_, ?_, ?_, ?_, ?_, ?_⟩ <;> omega

/-! ### `getCanonicalForm` and `getValidMoves` helpers -/

lemma canon_one (n : Nat) (b : Board) : getCanonicalForm n b 1 = b := by
  unfold getCanonicalForm
  rw [if_pos (by norm_num : (0 : Int) < 1)]

lemma canon_neg (n : Nat) (b : Board) :
    getCanonicalForm n b (-1) = fun i j => b (n - 1 - i) j * (-1) := by
  unfold getCanonicalForm
  rw [if_neg (by norm_num : ¬ (0 : Int) < -1)]

/-- For player `−1`, `getValidMoves` is `getValidMoves` of the canonical board
for player `+1` (the validity mask is computed on the canonical form). -/
lemma valid_neg (n : Nat) (b : Board) :
    getValidMoves n b (-1) = getValidMoves n (getCanonicalForm n b (-1)) 1 := by
  funext a
  simp only [getValidMoves, canon_one]

/-- Indices past the end of the concatenated numpy mask are never valid. -/
lemma valid_oob (n : Nat) (b : Board) (p : Int) (a : Nat) (hn : 4 ≤ n) (hev : Even n)
    (ha : actionSize n ≤ a) : getValidMoves n b p a = false := by
  have hS := actionSize_eq n hn hev
  have hsplit := mul_n_split n hev
  have hS' : actionSize n = (3 * n - 2) * (n - 1) := rfl
  unfold getValidMoves
  rw [if_neg, if_neg, if_neg, if_neg]
  all_goals
    generalize (n - 1) * (n - 1) = P at *
    generalize (n - 1) * (n / 2) = Q at *
    generalize (n - 1) * n = R at *
    omega

lemma valid_lt (n : Nat) (b : Board) (p : Int) (a : Nat) (hn : 4 ≤ n) (hev : Even n)
    (hv : getValidMoves n b p a = true) : a < actionSize n := by
  by_contra h
  rw [valid_oob n b p a hn hev (by omega)] at hv
  exact Bool.false_ne_true hv

/-- The mask bit at an in-range index, player `+1`, read off at the decoded
coordinates: the source must hold a positive piece; a straight move
(`src_col = dest_col`, regions 2/3) needs `= 0` at the destination, a diagonal
move (regions 1/4) needs `≤ 0`. -/
lemma valid_iff_pos (n : Nat) (b : Board) (a : Nat) (hn : 4 ≤ n) (hev : Even n)
    (ha : a < actionSize n) :
    getValidMoves n b 1 a = true ↔
      (0 < b (decodePos n a).src_row (decodePos n a).src_col ∧
       if (decodePos n a).src_col = (decodePos n a).dest_col
       then b (decodePos n a).dest_row (decodePos n a).dest_col = 0
       else b (decodePos n a).dest_row (decodePos n a).dest_col ≤ 0) := by
  have hS := actionSize_eq n hn hev
  have hsplit := mul_n_split n hev
  have hS' : actionSize n = (3 * n - 2) * (n - 1) := rfl
  have hh : 0 < n / 2 := by omega
  have hm : 0 < n - 1 := by omega
  rcases region_cases n a hn hev ha with h | ⟨i, hi, rfl⟩ | ⟨i, hi, rfl⟩ | ⟨i, hi, rfl⟩
  · rw [decode_r1 n a hn hev h]
    have h2 : a % (n - 1) < n - 1 := Nat.mod_lt _ hm
    simp only [getValidMoves, canon_one, if_pos h]
    rw [if_neg (by omega : ¬ a % (n - 1) = a % (n - 1) + 1)]
    exact decide_eq_true_iff
  · rw [decode_r2 n i hn hev hi]
    have hb1 : ¬ ((n - 1) * (n - 1) + i < (n - 1) * (n - 1)) := by
      generalize (n - 1) * (n - 1) = P
      omega
    have hb2 : (n - 1) * (n - 1) + i < (n - 1) * (n - 1) + (n - 1) * (n / 2) := by
      generalize (n - 1) * (n - 1) = P
      generalize (n - 1) * (n / 2) = Q at *
      omega
    simp only [getValidMoves, canon_one, if_neg hb1, if_pos hb2, Nat.add_sub_cancel_left]
    rw [if_pos trivial]
    exact decide_eq_true_iff
  · rw [decode_r3 n i hn hev hi]
    have hb1 : ¬ ((n - 1) * (n - 1) + (n - 1) * (n / 2) + i < (n - 1) * (n - 1)) := by
      generalize (n - 1) * (n - 1) = P
      generalize (n - 1) * (n / 2) = Q at *
      omega
    have hb2 : ¬ ((n - 1) * (n - 1) + (n - 1) * (n / 2) + i
        < (n - 1) * (n - 1) + (n - 1) * (n / 2)) := by
      generalize (n - 1) * (n - 1) = P
      generalize (n - 1) * (n / 2) = Q at *
      omega
    have hb3 : (n - 1) * (n - 1) + (n - 1) * (n / 2) + i < (n - 1) * (n - 1) + (n - 1) * n := by
      generalize (n - 1) * (n - 1) = P
      generalize (n - 1) * (n / 2) = Q at *
      generalize (n - 1) * n = R at *
      omega
    simp only [getValidMoves, canon_one, if_neg hb1, if_neg hb2, if_pos hb3,
      Nat.add_sub_cancel_left]
    rw [if_pos trivial]
    exact decide_eq_true_iff
  · rw [decode_r4 n i hn hev hi]
    have h2 : i % (n - 1) < n - 1 := Nat.mod_lt _ hm
    have hb1 : ¬ ((n - 1) * (n - 1) + (n - 1) * n + i < (n - 1) * (n - 1)) := by
      generalize (n - 1) * (n - 1) = P
      generalize (n - 1) * n = R at *
      omega
    have hb2 : ¬ ((n - 1) * (n - 1) + (n - 1) * n + i
        < (n - 1) * (n - 1) + (n - 1) * (n / 2)) := by
      generalize (n - 1) * (n - 1) = P
      generalize (n - 1) * (n / 2) = Q at *
      generalize (n - 1) * n = R at *
      omega
    have hb3 : ¬ ((n - 1) * (n - 1) + (n - 1) * n + i < (n - 1) * (n - 1) + (n - 1) * n) := by
      generalize (n - 1) * (n - 1) = P
      generalize (n - 1) * n = R at *
      omega
    have hb4 : (n - 1) * (n - 1) + (n - 1) * n + i < (3 * n - 2) * (n - 1) := by
      rw [← hS']
      generalize (n - 1) * (n - 1) = P at *
      generalize (n - 1) * (n / 2) = Q at *
      generalize (n - 1) * n = R at *
      omega
    simp only [getValidMoves, canon_one, if_neg hb1, if_neg hb2, if_neg hb3, if_pos hb4,
      Nat.add_sub_cancel_left]
    rw [if_neg (by omega : ¬ i % (n - 1) + 1 = i % (n - 1))]
    exact decide_eq_true_iff

/-! ### The horizontal-mirror involution on action indices -/

/-- `decodePos` maps the mirrored action index `actionSize − 1 − a` to the
horizontally mirrored move: same rows, columns reflected by `c ↦ n − 1 − c`. -/
lemma decodePos_mirror (n a : Nat) (hn : 4 ≤ n) (hev : Even n)
    (ha : a < actionSize n) :
    (decodePos n (actionSize n - 1 - a)).src_row = (decodePos n a).src_row ∧
    (decodePos n (actionSize n - 1 - a)).dest_row = (decodePos n a).dest_row ∧
    (decodePos n (actionSize n - 1 - a)).src_col = n - 1 - (decodePos n a).src_col ∧
    (decodePos n (actionSize n - 1 - a)).dest_col = n - 1 - (decodePos n a).dest_col := by
  have hS := actionSize_eq n hn hev
  have hsplit := mul_n_split n hev
  have hm : 0 < n - 1 := by omega
  have hh : 0 < n / 2 := by omega
  have hhn : 2 * (n / 2) = n := by obtain ⟨k, hk⟩ := hev; omega
  have hP : 0 < (n - 1) * (n - 1) := Nat.mul_pos hm hm
  have hQ : 0 < (n - 1) * (n / 2) := Nat.mul_pos hm hh
  have hQc : (n / 2) * (n - 1) = (n - 1) * (n / 2) := Nat.mul_comm _ _
  rcases region_cases n a hn hev ha with h | ⟨i, hi, rfl⟩ | ⟨i, hi, rfl⟩ | ⟨i, hi, rfl⟩
  · -- region 1 ↔ region 4
    have ha' : actionSize n - 1 - a
        = (n - 1) * (n - 1) + (n - 1) * n + ((n - 1) * (n - 1) - 1 - a) := by
      generalize (n - 1) * (n - 1) = P at *
      generalize (n - 1) * (n / 2) = Q at *
      generalize (n - 1) * n = R at *
      omega
    have hi' : (n - 1) * (n - 1) - 1 - a < (n - 1) * (n - 1) := by
      generalize (n - 1) * (n - 1) = P at *
      omega
    rw [ha', decode_r4 n ((n - 1) * (n - 1) - 1 - a) hn hev hi', decode_r1 n a hn hev h]
    obtain ⟨hfq, hfr⟩ := flip_div_mod (n - 1) (n - 1) a hm h
    have hq : a / (n - 1) < n - 1 := Nat.div_lt_of_lt_mul h
    have hr : a % (n - 1) < n - 1 := Nat.mod_lt _ hm
    dsimp only
    generalize ((n - 1) * (n - 1) - 1 - a) / (n - 1) = q1 at hfq ⊢
    generalize ((n - 1) * (n - 1) - 1 - a) % (n - 1) = r1 at hfr ⊢
    generalize a / (n - 1) = q2 at hfq hq ⊢
    generalize a % (n - 1) = r2 at hfr hr ⊢
    refine ⟨?_, ?_, ?_, ?_⟩ <;> omega
  · -- region 2 ↔ region 3
    have ha' : actionSize n - 1 - ((n - 1) * (n - 1) + i)
        = (n - 1) * (n - 1) + (n - 1) * (n / 2) + ((n / 2) * (n - 1) - 1 - i) := by
      generalize (n - 1) * (n - 1) = P at *
      omega
    have hi' : (n / 2) * (n - 1) - 1 - i < (n - 1) * (n / 2) := by omega
    rw [ha', decode_r3 n ((n / 2) * (n - 1) - 1 - i) hn hev hi',
      decode_r2 n i hn hev hi]
    obtain ⟨hfq, hfr⟩ := flip_div_mod (n / 2) (n - 1) i hh (by omega)
    have hq : i / (n / 2) < n - 1 := Nat.div_lt_of_lt_mul (by omega)
    have hr : i % (n / 2) < n / 2 := Nat.mod_lt _ hh
    dsimp only
    generalize ((n / 2) * (n - 1) - 1 - i) / (n / 2) = q1 at hfq ⊢
    generalize ((n / 2) * (n - 1) - 1 - i) % (n / 2) = r1 at hfr ⊢
    generalize i / (n / 2) = q2 at hfq hq ⊢
    generalize i % (n / 2) = r2 at hfr hr ⊢
    refine ⟨?_, ?_, ?_, ?_⟩ <;> omega
  · -- region 3 ↔ region 2
    have ha' : actionSize n - 1 - ((n - 1) * (n - 1) + (n - 1) * (n / 2) + i)
        = (n - 1) * (n - 1) + ((n / 2) * (n - 1) - 1 - i) := by
      generalize (n - 1) * (n - 1) = P at *
      omega
    have hi' : (n / 2) * (n - 1) - 1 - i < (n - 1) * (n / 2) := by omega
    rw [ha', decode_r2 n ((n / 2) * (n - 1) - 1 - i) hn hev hi',
      decode_r3 n i hn hev hi]
    obtain ⟨hfq, hfr⟩ := flip_div_mod (n / 2) (n - 1) i hh (by omega)
    have hq : i / (n / 2) < n - 1 := Nat.div_lt_of_lt_mul (by omega)
    have hr : i % (n / 2) < n / 2 := Nat.mod_lt _ hh
    dsimp only
    generalize ((n / 2) * (n - 1) - 1 - i) / (n / 2) = q1 at hfq ⊢
    generalize ((n / 2) * (n - 1) - 1 - i) % (n / 2) = r1 at hfr ⊢
    generalize i / (n / 2) = q2 at hfq hq ⊢
    generalize i % (n / 2) = r2 at hfr hr ⊢
    refine ⟨?_, ?_, ?_, ?_⟩ <;> omega
  · -- region 4 ↔ region 1
    have ha' : actionSize n - 1 - ((n - 1) * (n - 1) + (n - 1) * n + i)
        = (n - 1) * (n - 1) - 1 - i := by
      generalize (n - 1) * (n - 1) = P at *
      generalize (n - 1) * (n / 2) = Q at *
      generalize (n - 1) * n = R at *
      omega
    have hi' : (n - 1) * (n - 1) - 1 - i < (n - 1) * (n - 1) := by
      generalize (n - 1) * (n - 1) = P at *
      omega
    rw [ha', decode_r1 n ((n - 1) * (n - 1) - 1 - i) hn hev hi',
      decode_r4 n i hn hev hi]
    obtain ⟨hfq, hfr⟩ := flip_div_mod (n - 1) (n - 1) i hm hi
    have hq : i / (n - 1) < n - 1 := Nat.div_lt_of_lt_mul hi
    have hr : i % (n - 1) < n - 1 := Nat.mod_lt _ hm
    dsimp only
    generalize ((n - 1) * (n - 1) - 1 - i) / (n - 1) = q1 at hfq ⊢
    generalize ((n - 1) * (n - 1) - 1 - i) % (n - 1) = r1 at hfr ⊢
    generalize i / (n - 1) = q2 at hfq hq ⊢
    generalize i % (n - 1) = r2 at hfr hr ⊢
    refine ⟨?_, ?_, ?_, ?_⟩ <;> omega

/-- Geometry of the full decode, for either sign of the player: all four
coordinates are on the board, the move advances one row in the player's
direction, and the column shift is at most one (columns do not depend on the
player). -/
lemma decode_geom (n : Nat) (p : Int) (a : Nat) (hn : 4 ≤ n) (hev : Even n)
    (ha : a < actionSize n) :
    (decode n p a).src_row < n ∧ (decode n p a).src_col < n ∧
    (decode n p a).dest_row < n ∧ (decode n p a).dest_col < n ∧
    (¬ p < 0 → (decode n p a).src_row = (decode n p a).dest_row + 1) ∧
    (p < 0 → (decode n p a).dest_row = (decode n p a).src_row + 1) ∧
    (decode n p a).dest_col ≤ (decode n p a).src_col + 1 ∧
    (decode n p a).src_col ≤ (decode n p a).dest_col + 1 ∧
    (decode n p a).src_col = (decodePos n a).src_col ∧
    (decode n p a).dest_col = (decodePos n a).dest_col := by
  obtain ⟨e1, e2, e3, e4, e5, e6, e7⟩ := decodePos_spec n a hn hev ha
  by_cases hp : p < 0
  · simp only [decode, if_pos hp]
    refine ⟨by omega, e4, by omega, e5, fun h => absurd hp h, fun _ => by omega,
      e6, e7, by trivial, by trivial⟩
  · simp only [decode, if_neg hp]
    exact ⟨e2, e4, by omega, e5, fun _ => e1, fun h => absurd h hp, e6, e7,
      by trivial, by trivial⟩

/-- The mirror involution at the level of `decode` (any player): same rows,
columns reflected. -/
lemma decode_mirror (n : Nat) (p : Int) (a : Nat) (hn : 4 ≤ n) (hev : Even n)
    (ha : a < actionSize n) :
    (decode n p (actionSize n - 1 - a)).src_row = (decode n p a).src_row ∧
    (decode n p (actionSize n - 1 - a)).dest_row = (decode n p a).dest_row ∧
    (decode n p (actionSize n - 1 - a)).src_col = n - 1 - (decode n p a).src_col ∧
    (decode n p (actionSize n - 1 - a)).dest_col = n - 1 - (decode n p a).dest_col := by
  obtain ⟨m1, m2, m3, m4⟩ := decodePos_mirror n a hn hev ha
  by_cases hp : p < 0
  · simp only [decode, if_pos hp]
    exact ⟨by rw [m1], by rw [m2], m3, m4⟩
  · simp only [decode, if_neg hp]
    exact ⟨m1, m2, m3, m4⟩

/-- What a set validity bit says about the board at the decoded coordinates,
for either real player: the source holds one of `p`'s pieces
(`0 < p * cell`), a straight move needs an empty destination, a diagonal move
needs a destination not owned by `p`. -/
lemma valid_char (n : Nat) (b : Board) (p : Int) (a : Nat) (hn : 4 ≤ n)
    (hev : Even n) (hp : p = 1 ∨ p = -1)
    (hv : getValidMoves n b p a = true) :
    a < actionSize n ∧
    0 < p * b (decode n p a).src_row (decode n p a).src_col ∧
    ((decode n p a).src_col = (decode n p a).dest_col →
      b (decode n p a).dest_row (decode n p a).dest_col = 0) ∧
    ((decode n p a).src_col ≠ (decode n p a).dest_col →
      p * b (decode n p a).dest_row (decode n p a).dest_col ≤ 0) := by
  have ha := valid_lt n b p a hn hev hv
  refine ⟨ha, ?_⟩
  rcases hp with rfl | rfl
  · rw [valid_iff_pos n b a hn hev ha] at hv
    obtain ⟨h1, h2⟩ := hv
    rw [decode_one]
    refine ⟨by rw [one_mul]; exact h1, ?_, ?_⟩
    · intro hc
      rw [if_pos hc] at h2
      exact h2
    · intro hc
      rw [if_neg hc] at h2
      rw [one_mul]
      exact h2
  · rw [valid_neg, valid_iff_pos n (getCanonicalForm n b (-1)) a hn hev ha,
      canon_neg] at hv
    simp only [] at hv
    have hsr : n - 1 - (decodePos n a).src_row = n - (decodePos n a).src_row - 1 := by
      omega
    have hdr : n - 1 - (decodePos n a).dest_row = n - (decodePos n a).dest_row - 1 := by
      omega
    rw [hsr, hdr] at hv
    obtain ⟨h1, h2⟩ := hv
    rw [decode_neg]
    dsimp only
    refine ⟨by omega, ?_, ?_⟩
    · intro hc
      rw [if_pos hc] at h2
      omega
    · intro hc
      rw [if_neg hc] at h2
      omega

/-! ### `getGameEnded` and `stringRepresentation` helpers -/

lemma range_any_iff (n : Nat) (f : Nat → Int) (x : Int) :
    ((List.range n).any fun c => f c == x) = true ↔ ∃ c, c < n ∧ f c = x := by
  simp only [List.any_eq_true, List.mem_range, beq_iff_eq]

lemma isSome_map_eq {α β : Type} (f : α → β) (o : Option α) :
    (Option.map f o).isSome = o.isSome := by
  cases o <;> rfl

lemma tupleIndex_isSome (p : Int) (hp : p = -1 ∨ p = 0 ∨ p = 1) :
    (tupleIndex ['.', 'W', 'B'] p).isSome = true := by
  rcases hp with rfl | rfl | rfl <;> decide

lemma seqOpt_isSome (L : List (Option Char)) (h : ∀ o ∈ L, o.isSome = true) :
    (seqOpt L).isSome = true := by
  induction L with
  | nil => rfl
  | cons o rest ih =>
    cases o with
    | none =>
      have hnone := h none (List.mem_cons_self _ _)
      simp at hnone
    | some c =>
      simp only [seqOpt, isSome_map_eq]
      exact ih fun x hx => h x (List.mem_cons_of_mem _ hx)

lemma strRep_isSome (n : Nat) (b : Board)
    (hcells : ∀ i, i < n → ∀ j, j < n → b i j = -1 ∨ b i j = 0 ∨ b i j = 1) :
    (stringRepresentation n b).isSome = true := by
  unfold stringRepresentation
  rw [isSome_map_eq]
  apply seqOpt_isSome
  intro o ho
  simp only [List.mem_flatten, List.mem_map, List.mem_range] at ho
  obtain ⟨row, ⟨i, hi, rfl⟩, hrow⟩ := ho
  rw [List.mem_map] at hrow
  obtain ⟨j, hjm, rfl⟩ := hrow
  rw [List.mem_range] at hjm
  exact tupleIndex_isSome _ (hcells i hi j hjm)

/-! ### Claim theorems -/

/-- C1: for every even `n ≥ 4`, board with cells in `{-1, 0, +1}`, player
`p ∈ {+1, −1}` and action marked legal by `getValidMoves`, the move decoded by
`getNextState` starts on a cell holding `p`'s piece, advances exactly one row
in `p`'s direction (row index decreasing for `p = +1`, increasing for
`p = −1`), shifts at most one column, never lands on a friendly piece, and a
straight-forward move lands on an empty cell. -/
theorem valid_move_geometry (n : Nat) (b : Board) (p : Int) (a : Nat)
    (hn : 4 ≤ n) (hev : Even n)
    (hcells : ∀ i, i < n → ∀ j, j < n → b i j = -1 ∨ b i j = 0 ∨ b i j = 1)
    (hp : p = 1 ∨ p = -1)
    (hv : getValidMoves n b p a = true) :
    b (decode n p a).src_row (decode n p a).src_col = p ∧
    (p = 1 → (decode n p a).dest_row + 1 = (decode n p a).src_row) ∧
    (p = -1 → (decode n p a).dest_row = (decode n p a).src_row + 1) ∧
    (decode n p a).dest_col ≤ (decode n p a).src_col + 1 ∧
    (decode n p a).src_col ≤ (decode n p a).dest_col + 1 ∧
    b (decode n p a).dest_row (decode n p a).dest_col ≠ p ∧
    ((decode n p a).src_col = (decode n p a).dest_col →
      b (decode n p a).dest_row (decode n p a).dest_col = 0) := by
  obtain ⟨ha, hsrc, hstraight, hdiag⟩ := valid_char n b p a hn hev hp hv
  obtain ⟨g1, g2, g3, g4, g5, g6, g7, g8, _, _⟩ := decode_geom n p a hn hev ha
  have hsv := hcells _ g1 _ g2
  have hdv := hcells _ g3 _ g4
  refine ⟨?_, ?_, ?_, g7, g8, ?_, hstraight⟩
  · rcases hp with rfl | rfl <;> rcases hsv with h | h | h <;> omega
  · intro hp1
    subst hp1
    exact (g5 (by norm_num)).symm
  · intro hp1
    subst hp1
    exact g6 (by norm_num)
  · by_cases hc : (decode n p a).src_col = (decode n p a).dest_col
    · have hz := hstraight hc
      rcases hp with rfl | rfl <;> omega
    · have hz := hdiag hc
      rcases hp with rfl | rfl <;> rcases hdv with h | h | h <;> omega

theorem valid_move_geometry_witness :
    getInitBoard 4 (decode 4 1 3).src_row (decode 4 1 3).src_col = 1 ∧
    ((1 : Int) = 1 → (decode 4 1 3).dest_row + 1 = (decode 4 1 3).src_row) ∧
    ((1 : Int) = -1 → (decode 4 1 3).dest_row = (decode 4 1 3).src_row + 1) ∧
    (decode 4 1 3).dest_col ≤ (decode 4 1 3).src_col + 1 ∧
    (decode 4 1 3).src_col ≤ (decode 4 1 3).dest_col + 1 ∧
    getInitBoard 4 (decode 4 1 3).dest_row (decode 4 1 3).dest_col ≠ 1 ∧
    ((decode 4 1 3).src_col = (decode 4 1 3).dest_col →
      getInitBoard 4 (decode 4 1 3).dest_row (decode 4 1 3).dest_col = 0) :=
  valid_move_geometry 4 (getInitBoard 4) 1 3 (by norm_num) ⟨2, rfl⟩ (by decide)
    (Or.inl rfl) (by decide)

/-- C2: for every even `n ≥ 4`, any player, and every action
`a < (3n−2)(n−1)`, the moves decoded for `a` and for `actionSize − 1 − a`
have identical row coordinates and horizontally mirrored column coordinates
(`c ↦ n − 1 − c`). -/
theorem action_mirror_involution (n : Nat) (p : Int) (a : Nat) (hn : 4 ≤ n)
    (hev : Even n) (ha : a < actionSize n) :
    (decode n p (actionSize n - 1 - a)).src_row = (decode n p a).src_row ∧
    (decode n p (actionSize n - 1 - a)).dest_row = (decode n p a).dest_row ∧
    (decode n p (actionSize n - 1 - a)).src_col = n - 1 - (decode n p a).src_col ∧
    (decode n p (actionSize n - 1 - a)).dest_col = n - 1 - (decode n p a).dest_col :=
  decode_mirror n p a hn hev ha

theorem action_mirror_involution_witness :
    (decode 4 1 (actionSize 4 - 1 - 5)).src_row = (decode 4 1 5).src_row ∧
    (decode 4 1 (actionSize 4 - 1 - 5)).dest_row = (decode 4 1 5).dest_row ∧
    (decode 4 1 (actionSize 4 - 1 - 5)).src_col = 4 - 1 - (decode 4 1 5).src_col ∧
    (decode 4 1 (actionSize 4 - 1 - 5)).dest_col = 4 - 1 - (decode 4 1 5).dest_col :=
  action_mirror_involution 4 1 5 (by norm_num) ⟨2, rfl⟩ (by decide)

/-- C3: `getNextState` commutes with the left-right board mirror under the
action involution: applying `actionSize − 1 − a` to the mirrored board gives
the mirror of applying `a` (same returned player, mirrored board cells). -/
theorem nextState_mirror_comm (n : Nat) (b : Board) (p : Int) (a : Nat)
    (hn : 4 ≤ n) (hev : Even n) (_hp : p = 1 ∨ p = -1) (ha : a < actionSize n) :
    (getNextState n (fliplrB n b) p (actionSize n - 1 - a)).2
      = (getNextState n b p a).2 ∧
    ∀ i j, i < n → j < n →
      (getNextState n (fliplrB n b) p (actionSize n - 1 - a)).1 i j
        = fliplrB n (getNextState n b p a).1 i j := by
  obtain ⟨r1, r2, r3, r4⟩ := decode_mirror n p a hn hev ha
  obtain ⟨_, g2, _, g4, _, _, _, _, _, _⟩ := decode_geom n p a hn hev ha
  refine ⟨rfl, ?_⟩
  intro i j _hi hj
  simp only [getNextState, upd, fliplrB]
  rw [r1, r2, r3, r4]
  have hiff1 : (i = (decode n p a).dest_row ∧ j = n - 1 - (decode n p a).dest_col)
      ↔ (i = (decode n p a).dest_row ∧ n - 1 - j = (decode n p a).dest_col) := by
    constructor <;> (rintro ⟨hh1, hh2⟩; exact ⟨hh1, by omega⟩)
  have hiff2 : (i = (decode n p a).src_row ∧ j = n - 1 - (decode n p a).src_col)
      ↔ (i = (decode n p a).src_row ∧ n - 1 - j = (decode n p a).src_col) := by
    constructor <;> (rintro ⟨hh1, hh2⟩; exact ⟨hh1, by omega⟩)
  exact if_congr hiff1 rfl (if_congr hiff2 rfl rfl)

theorem nextState_mirror_comm_witness :
    (getNextState 4 (fliplrB 4 (getInitBoard 4)) 1 (actionSize 4 - 1 - 3)).2
      = (getNextState 4 (getInitBoard 4) 1 3).2 ∧
    ∀ i j, i < 4 → j < 4 →
      (getNextState 4 (fliplrB 4 (getInitBoard 4)) 1 (actionSize 4 - 1 - 3)).1 i j
        = fliplrB 4 (getNextState 4 (getInitBoard 4) 1 3).1 i j :=
  nextState_mirror_comm 4 (getInitBoard 4) 1 3 (by norm_num) ⟨2, rfl⟩ (Or.inl rfl)
    (by decide)

/-- C4: a legal move changes exactly two cells — the decoded source becomes 0,
the decoded destination becomes `p` — every other cell is unchanged, and both
written cells really change (`source ≠ 0` and `destination ≠ p` beforehand).
Non-mutation of the input board is inherent to the purely functional
embedding: `upd` builds a new board. -/
theorem nextState_frame (n : Nat) (b : Board) (p : Int) (a : Nat)
    (hn : 4 ≤ n) (hev : Even n) (hp : p = 1 ∨ p = -1)
    (hv : getValidMoves n b p a = true) :
    (getNextState n b p a).1 (decode n p a).src_row (decode n p a).src_col = 0 ∧
    (getNextState n b p a).1 (decode n p a).dest_row (decode n p a).dest_col = p ∧
    (∀ i j, ¬ (i = (decode n p a).src_row ∧ j = (decode n p a).src_col) →
      ¬ (i = (decode n p a).dest_row ∧ j = (decode n p a).dest_col) →
      (getNextState n b p a).1 i j = b i j) ∧
    b (decode n p a).src_row (decode n p a).src_col ≠ 0 ∧
    b (decode n p a).dest_row (decode n p a).dest_col ≠ p := by
  obtain ⟨ha, hsrc, hstraight, hdiag⟩ := valid_char n b p a hn hev hp hv
  obtain ⟨_, _, _, _, g5, g6, _, _, _, _⟩ := decode_geom n p a hn hev ha
  have hrow : (decode n p a).src_row ≠ (decode n p a).dest_row := by
    rcases hp with rfl | rfl
    · have := g5 (by norm_num)
      omega
    · have := g6 (by norm_num)
      omega
  refine ⟨?_, ?_, ?_, ?_, ?_⟩
  · simp only [getNextState, upd]
    rw [if_neg fun hcon => hrow hcon.1, if_pos ⟨trivial, trivial⟩]
  · simp only [getNextState, upd]
    rw [if_pos ⟨trivial, trivial⟩]
  · intro i j hs hd
    simp only [getNextState, upd]
    rw [if_neg hd, if_neg hs]
  · intro h
    rw [h, mul_zero] at hsrc
    exact lt_irrefl 0 hsrc
  · by_cases hc : (decode n p a).src_col = (decode n p a).dest_col
    · have hz := hstraight hc
      rcases hp with rfl | rfl <;> omega
    · have hz := hdiag hc
      rcases hp with rfl | rfl <;> omega

theorem nextState_frame_witness :
    (getNextState 4 (getInitBoard 4) 1 4).1 (decode 4 1 4).src_row
      (decode 4 1 4).src_col = 0 ∧
    (getNextState 4 (getInitBoard 4) 1 4).1 (decode 4 1 4).dest_row
      (decode 4 1 4).dest_col = 1 ∧
    (∀ i j, ¬ (i = (decode 4 1 4).src_row ∧ j = (decode 4 1 4).src_col) →
      ¬ (i = (decode 4 1 4).dest_row ∧ j = (decode 4 1 4).dest_col) →
      (getNextState 4 (getInitBoard 4) 1 4).1 i j = getInitBoard 4 i j) ∧
    getInitBoard 4 (decode 4 1 4).src_row (decode 4 1 4).src_col ≠ 0 ∧
    getInitBoard 4 (decode 4 1 4).dest_row (decode 4 1 4).dest_col ≠ 1 :=
  nextState_frame 4 (getInitBoard 4) 1 4 (by norm_num) ⟨2, rfl⟩ (Or.inl rfl)
    (by decide)

/-- C5: `getGameEnded` returns `player` as soon as any cell of row 0 holds
`+1` (side A has broken through), else `-player` if any cell of row `n−1`
holds `−1`, else `0`; side A's win is checked first, so it takes precedence
when both conditions hold. -/
theorem gameEnded_spec (n : Nat) (b : Board) (p : Int) :
    ((∃ c, c < n ∧ b 0 c = 1) → getGameEnded n b p = p) ∧
    (¬ (∃ c, c < n ∧ b 0 c = 1) → (∃ c, c < n ∧ b (n - 1) c = -1) →
      getGameEnded n b p = -p) ∧
    (¬ (∃ c, c < n ∧ b 0 c = 1) → ¬ (∃ c, c < n ∧ b (n - 1) c = -1) →
      getGameEnded n b p = 0) := by
  refine ⟨?_, ?_, ?_⟩
  · intro h
    have hw : ((List.range n).any fun c => b 0 c == 1) = true :=
      (range_any_iff n (fun c => b 0 c) 1).mpr h
    simp [getGameEnded, hw]
  · intro hnw hb
    have hw : ((List.range n).any fun c => b 0 c == 1) = false := by
      cases hbool : ((List.range n).any fun c => b 0 c == 1)
      · rfl
      · exact absurd ((range_any_iff n (fun c => b 0 c) 1).mp hbool) hnw
    have hb' : ((List.range n).any fun c => b (n - 1) c == -1) = true :=
      (range_any_iff n (fun c => b (n - 1) c) (-1)).mpr hb
    simp [getGameEnded, hw, hb']
  · intro hnw hnb
    have hw : ((List.range n).any fun c => b 0 c == 1) = false := by
      cases hbool : ((List.range n).any fun c => b 0 c == 1)
      · rfl
      · exact absurd ((range_any_iff n (fun c => b 0 c) 1).mp hbool) hnw
    have hb' : ((List.range n).any fun c => b (n - 1) c == -1) = false := by
      cases hbool : ((List.range n).any fun c => b (n - 1) c == -1)
      · rfl
      · exact absurd ((range_any_iff n (fun c => b (n - 1) c) (-1)).mp hbool) hnb
    simp [getGameEnded, hw, hb']

theorem gameEnded_spec_witness :
    getGameEnded 4 (fun _ _ => 1) 1 = 1 ∧ getGameEnded 4 (getInitBoard 4) 1 = 0 :=
  ⟨(gameEnded_spec 4 (fun _ _ => 1) 1).1 ⟨0, by norm_num, rfl⟩,
   (gameEnded_spec 4 (getInitBoard 4) 1).2.2
     (by rintro ⟨c, hc, h⟩; norm_num [getInitBoard] at h)
     (by rintro ⟨c, hc, h⟩; norm_num [getInitBoard] at h)⟩

/-- C6: on well-formed inputs the core is total: for every even `n ≥ 4`, any
board, `p ∈ {+1, −1}` and any in-range action (legal or not), the decoded
coordinates all lie within `[0, n)`, `getNextState` returns the `-p` player,
and `stringRepresentation` succeeds whenever all cells are in `{-1, 0, +1}`. -/
theorem core_total (n : Nat) (b : Board) (p : Int) (a : Nat)
    (hn : 4 ≤ n) (hev : Even n) (_hp : p = 1 ∨ p = -1) (ha : a < actionSize n)
    (hcells : ∀ i, i < n → ∀ j, j < n → b i j = -1 ∨ b i j = 0 ∨ b i j = 1) :
    (decode n p a).src_row < n ∧ (decode n p a).src_col < n ∧
    (decode n p a).dest_row < n ∧ (decode n p a).dest_col < n ∧
    (getNextState n b p a).2 = -p ∧
    (stringRepresentation n b).isSome = true := by
  obtain ⟨g1, g2, g3, g4, _, _, _, _, _, _⟩ := decode_geom n p a hn hev ha
  exact ⟨g1, g2, g3, g4, rfl, strRep_isSome n b hcells⟩

theorem core_total_witness :
    (decode 4 1 0).src_row < 4 ∧ (decode 4 1 0).src_col < 4 ∧
    (decode 4 1 0).dest_row < 4 ∧ (decode 4 1 0).dest_col < 4 ∧
    (getNextState 4 (getInitBoard 4) 1 0).2 = -1 ∧
    (stringRepresentation 4 (getInitBoard 4)).isSome = true :=
  core_total 4 (getInitBoard 4) 1 0 (by norm_num) ⟨2, rfl⟩ (Or.inl rfl)
    (by decide) (by decide)

set_option maxRecDepth 10000

/-- C7: on the standard `8 × 8` initial board, player `+1` has exactly 22
legal actions; each of them moves from row 6 to row 5, and every action whose
decoded destination is in row 6 or 7 is marked illegal. -/
theorem initial_valid_moves_n8 :
    ((List.range (actionSize 8)).countP fun a => getValidMoves 8 (getInitBoard 8) 1 a)
      = 22 ∧
    (∀ a : Fin (actionSize 8),
      getValidMoves 8 (getInitBoard 8) 1 (a : Nat) = true →
        (decode 8 1 (a : Nat)).src_row = 6 ∧ (decode 8 1 (a : Nat)).dest_row = 5) ∧
    (∀ a : Fin (actionSize 8),
      ((decode 8 1 (a : Nat)).dest_row = 6 ∨ (decode 8 1 (a : Nat)).dest_row = 7) →
        getValidMoves 8 (getInitBoard 8) 1 (a : Nat) = false) := by
  decide

/-- C8: `getSymmetries` returns exactly the identity pair followed by the
left-right mirrored pair, and (given `pi` has length `actionSize`) the
reversed policy satisfies `pi'[i] = pi[actionSize − 1 − i]`. -/
theorem symmetries_spec (n : Nat) (b : Board) (pi : List ℚ)
    (hlen : pi.length = actionSize n) :
    (getSymmetries n b pi).length = 2 ∧
    (getSymmetries n b pi)[0]? = some (b, pi) ∧
    (getSymmetries n b pi)[1]? = some (fliplrB n b, pi.reverse) ∧
    ∀ i, i < actionSize n → pi.reverse[i]? = pi[actionSize n - 1 - i]? := by
  refine ⟨rfl, rfl, rfl, ?_⟩
  intro i hi
  rw [List.getElem?_reverse (by rw [hlen]; exact hi), hlen]

theorem symmetries_spec_witness :
    (getSymmetries 4 (getInitBoard 4) (List.replicate 30 0)).length = 2 ∧
    (getSymmetries 4 (getInitBoard 4) (List.replicate 30 0))[0]?
      = some (getInitBoard 4, List.replicate 30 0) ∧
    (getSymmetries 4 (getInitBoard 4) (List.replicate 30 0))[1]?
      = some (fliplrB 4 (getInitBoard 4), (List.replicate 30 0).reverse) ∧
    ∀ i, i < actionSize 4 →
      (List.replicate 30 (0 : ℚ)).reverse[i]?
        = (List.replicate 30 (0 : ℚ))[actionSize 4 - 1 - i]? :=
  symmetries_spec 4 (getInitBoard 4) (List.replicate 30 0) (by rfl)

/-- C9: the initial board has side B (−1) on rows 0 and 1, side A (+1) on
rows `n−2` and `n−1`, and empty cells everywhere in between. -/
theorem initBoard_spec (n : Nat) (hn : 4 ≤ n) (_hev : Even n) :
    ∀ i j, i < n → j < n →
      ((i = 0 ∨ i = 1) → getInitBoard n i j = -1) ∧
      ((i = n - 2 ∨ i = n - 1) → getInitBoard n i j = 1) ∧
      (2 ≤ i → i + 2 < n → getInitBoard n i j = 0) := by
  intro i j hi hj
  refine ⟨?_, ?_, ?_⟩
  · intro h
    unfold getInitBoard
    rw [if_pos h, if_neg (show ¬ (i = n - 1 ∨ i = n - 2) by omega)]
    norm_num
  · intro h
    unfold getInitBoard
    rw [if_neg (show ¬ (i = 0 ∨ i = 1) by omega),
      if_pos (show i = n - 1 ∨ i = n - 2 by omega)]
    norm_num
  · intro h2 h2'
    unfold getInitBoard
    rw [if_neg (show ¬ (i = 0 ∨ i = 1) by omega),
      if_neg (show ¬ (i = n - 1 ∨ i = n - 2) by omega)]
    norm_num

theorem initBoard_spec_witness :
    ((1 = 0 ∨ 1 = 1) → getInitBoard 4 1 2 = -1) ∧
    ((1 = 4 - 2 ∨ 1 = 4 - 1) → getInitBoard 4 1 2 = 1) ∧
    (2 ≤ 1 → 1 + 2 < 4 → getInitBoard 4 1 2 = 0) :=
  initBoard_spec 4 (by norm_num) ⟨2, rfl⟩ 1 2 (by norm_num) (by norm_num)

/-- C10: every in-range action (legal or not) decodes to a well-formed single
step: rows differ by exactly one in the player's direction, columns by at
most one, and source and destination are distinct cells. -/
theorem decode_single_step (n : Nat) (p : Int) (a : Nat) (hn : 4 ≤ n)
    (hev : Even n) (ha : a < actionSize n) (hp : p = 1 ∨ p = -1) :
    (p = 1 → (decode n p a).src_row = (decode n p a).dest_row + 1) ∧
    (p = -1 → (decode n p a).dest_row = (decode n p a).src_row + 1) ∧
    (decode n p a).dest_col ≤ (decode n p a).src_col + 1 ∧
    (decode n p a).src_col ≤ (decode n p a).dest_col + 1 ∧
    ((decode n p a).src_row, (decode n p a).src_col)
      ≠ ((decode n p a).dest_row, (decode n p a).dest_col) := by
  obtain ⟨_, _, _, _, g5, g6, g7, g8, _, _⟩ := decode_geom n p a hn hev ha
  refine ⟨?_, ?_, g7, g8, ?_⟩
  · intro h
    subst h
    exact g5 (by norm_num)
  · intro h
    subst h
    exact g6 (by norm_num)
  · intro hcon
    rw [Prod.mk.injEq] at hcon
    obtain ⟨hc1, _⟩ := hcon
    rcases hp with rfl | rfl
    · have := g5 (by norm_num)
      omega
    · have := g6 (by norm_num)
      omega

theorem decode_single_step_witness :
    ((-1 : Int) = 1 → (decode 4 (-1) 7).src_row = (decode 4 (-1) 7).dest_row + 1) ∧
    ((-1 : Int) = -1 → (decode 4 (-1) 7).dest_row = (decode 4 (-1) 7).src_row + 1) ∧
    (decode 4 (-1) 7).dest_col ≤ (decode 4 (-1) 7).src_col + 1 ∧
    (decode 4 (-1) 7).src_col ≤ (decode 4 (-1) 7).dest_col + 1 ∧
    ((decode 4 (-1) 7).src_row, (decode 4 (-1) 7).src_col)
      ≠ ((decode 4 (-1) 7).dest_row, (decode 4 (-1) 7).dest_col) :=
  decode_single_step 4 (-1) 7 (by norm_num) ⟨2, rfl⟩ (by decide) (Or.inr rfl)

end Breakthrough
